import Mathlib

set_option linter.unusedVariables false

/-!
Verification of the query analyzer of gitbase (src/database.go).

The plan and expression data model, the generic tree transforms and the
catalog come from the spec (sections 3, 4.1 and 6): their Go code lives in
the go-mysql-server library and is not part of the repository sources.
Every analyzer rule below is translated from src/database.go.
-/

/-- A column type. The analyzer treats types opaquely; three concrete
types are enough to state every claim. -/
inductive SqlType where
  | string
  | int64
  | boolean
deriving DecidableEq

/-- One column descriptor of a schema: name, type, owning source table and
nullability (spec section 3). -/
structure Column where
  name : String
  typ : SqlType
  source : String
  nullable : Bool
deriving DecidableEq

/-- An ordered sequence of column descriptors. -/
abbrev Schema := List Column

/-- The closed expression variants (spec section 3). `uCol` models the Go
type UnresolvedColumn; the library constructor NewUnresolvedQualifiedColumn
returns the same Go type with the table field set, so an
UnresolvedQualifiedColumn is a `uCol` whose table is not empty. -/
inductive Expression where
  | uCol (table name : String)
  | uFunc (name : String) (args : List Expression)
  | getField (index : Nat) (typ : SqlType) (table name : String) (nullable : Bool)
  | star
  | lit (value : String) (typ : SqlType)
  | eq (left right : Expression)
  | and (left right : Expression)
  | or (left right : Expression)
  | not (child : Expression)

mutual

/-- Structural equality of expressions, the match the Go code performs with
reflect.DeepEqual. -/
def Expression.beq : Expression → Expression → Bool
  | .uCol t1 n1, .uCol t2 n2 => t1 == t2 && n1 == n2
  | .uFunc n1 as1, .uFunc n2 as2 => n1 == n2 && Expression.beqList as1 as2
  | .getField i1 ty1 tb1 n1 nu1, .getField i2 ty2 tb2 n2 nu2 =>
      i1 == i2 && ty1 == ty2 && tb1 == tb2 && n1 == n2 && nu1 == nu2
  | .star, .star => true
  | .lit v1 ty1, .lit v2 ty2 => v1 == v2 && ty1 == ty2
  | .eq a b, .eq c d => Expression.beq a c && Expression.beq b d
  | .and a b, .and c d => Expression.beq a c && Expression.beq b d
  | .or a b, .or c d => Expression.beq a c && Expression.beq b d
  | .not a, .not b => Expression.beq a b
  | _, _ => false

/-- Structural equality of expression lists. -/
def Expression.beqList : List Expression → List Expression → Bool
  | [], [] => true
  | a :: as, b :: bs => Expression.beq a b && Expression.beqList as bs
  | _, _ => false

end

instance : BEq Expression := ⟨Expression.beq⟩

mutual

/-- Bottom-up expression rewrite (spec section 4.1): every sub-expression is
rewritten first, the node is rebuilt from the rewritten parts and the
function is applied to the rebuilt node. -/
def Expression.transformUpM {M : Type → Type} [Monad M]
    (g : Expression → M Expression) : Expression → M Expression
  | .uCol t n => g (.uCol t n)
  | .uFunc n args => do g (.uFunc n (← Expression.transformUpMList g args))
  | .getField i ty tb nm nu => g (.getField i ty tb nm nu)
  | .star => g .star
  | .lit v ty => g (.lit v ty)
  | .eq a b => do g (.eq (← Expression.transformUpM g a) (← Expression.transformUpM g b))
  | .and a b => do g (.and (← Expression.transformUpM g a) (← Expression.transformUpM g b))
  | .or a b => do g (.or (← Expression.transformUpM g a) (← Expression.transformUpM g b))
  | .not a => do g (.not (← Expression.transformUpM g a))

/-- `Expression.transformUpM` on each member of a list, left to right. -/
def Expression.transformUpMList {M : Type → Type} [Monad M]
    (g : Expression → M Expression) : List Expression → M (List Expression)
  | [] => pure []
  | e :: es => do
      pure ((← Expression.transformUpM g e) :: (← Expression.transformUpMList g es))

end

/-- An expression is resolved once every referenced object is bound
(spec section 3): unresolved columns, functions and stars are not. -/
def Expression.resolved : Expression → Bool
  | .uCol .. => false
  | .uFunc .. => false
  | .star => false
  | .getField .. => true
  | .lit .. => true
  | .eq a b => a.resolved && b.resolved
  | .and a b => a.resolved && b.resolved
  | .or a b => a.resolved && b.resolved
  | .not a => a.resolved

mutual

/-- The GetField sub-expressions of an expression, in traversal order. -/
def Expression.getFields : Expression → List Expression
  | .uCol .. => []
  | .uFunc _ args => Expression.getFieldsList args
  | .getField i ty tb nm nu => [.getField i ty tb nm nu]
  | .star => []
  | .lit .. => []
  | .eq a b => a.getFields ++ b.getFields
  | .and a b => a.getFields ++ b.getFields
  | .or a b => a.getFields ++ b.getFields
  | .not a => a.getFields

/-- The GetField sub-expressions of every member of a list. -/
def Expression.getFieldsList : List Expression → List Expression
  | [] => []
  | e :: es => e.getFields ++ Expression.getFieldsList es

end

/-- The column name carried by a GetField; empty for other expressions. -/
def Expression.gfName : Expression → String
  | .getField _ _ _ nm _ => nm
  | _ => ""

/-- The table name carried by a GetField; empty for other expressions. -/
def Expression.gfTable : Expression → String
  | .getField _ _ tb _ _ => tb
  | _ => ""

/-- The names of the GetField sub-expressions of an expression. -/
def Expression.getFieldNames (e : Expression) : List String :=
  e.getFields.map Expression.gfName

/-- The analyzer error taxonomy (spec section 7, src/database.go lines
87-96). The ambiguous-column error carries the joined table list exactly as
ErrAmbiguousColumnName formats it with strings.Join. -/
inductive AErr where
  | tableNotFound (name : String)
  | columnTableNotFound (table name : String)
  | ambiguousColumnName (name : String) (tables : String)
  | fieldMissing (name : String)
  | functionNotFound (name : String)
  | databaseNotFound (name : String)
deriving DecidableEq

/-- The optional pushdown capability a table advertises (spec section 6):
none, projection only, or projection and filters with its HandledFilters
selector. -/
inductive Capability where
  | none
  | pushdownProjection
  | pushdownProjectionAndFilters (handledFilters : List Expression → List Expression)

/-- A catalog table: a name, a schema and an optional pushdown capability
(spec section 6). -/
structure Table where
  name : String
  schema : Schema
  capability : Capability

/-- A database of the catalog: a name and its tables (spec section 6;
src/database.go lines 22-62). -/
structure Database where
  name : String
  tables : List Table

/-- Modelled from the spec (section 6): the catalog maps database names to
databases, and function names to function factories. -/
structure Catalog where
  databases : List Database
  functions : List (String × (List Expression → Except AErr Expression))

/-- Modelled from the spec (section 6): Database(name) returns the database
or an unknown-database error. -/
def Catalog.database (c : Catalog) (name : String) : Except AErr Database :=
  match c.databases.find? (fun d => d.name == name) with
  | some d => .ok d
  | none => .error (.databaseNotFound name)

/-- Modelled from the spec (section 6): Table(database, name) returns the
named table of the named database; the lookup is case-sensitive on the
table name. -/
def Catalog.table (c : Catalog) (db tbl : String) : Except AErr Table := do
  match (← c.database db).tables.find? (fun t => t.name == tbl) with
  | some t => .ok t
  | none => .error (.tableNotFound tbl)

/-- Modelled from the spec (section 6): Function(name) returns the factory
or FunctionNotFound. -/
def Catalog.function (c : Catalog) (name : String) :
    Except AErr (List Expression → Except AErr Expression) :=
  match c.functions.lookup name with
  | some f => .ok f
  | none => .error (.functionNotFound name)

/-- The analyzer: the catalog it consults, the session's current database
and the recursion budget used when a subquery is analyzed (the Go original
recurses without a budget; the budget only truncates subquery nesting and
affects no claim). -/
structure Analyzer where
  catalog : Catalog
  currentDatabase : String
  depth : Nat

/-- The closed set of plan nodes (spec section 3). A resolved table is a
catalog table used directly as a node, as in the Go library where a
sql.Table is a sql.Node; ShowTables and CreateTable carry their database
slot as the resolved database name. crossJoin is the binary join node the
spec's scenarios use. -/
inductive Plan where
  | unresolvedTable (name : String)
  | resolvedTable (table : Table)
  | project (expressions : List Expression) (child : Plan)
  | filter (expression : Expression) (child : Plan)
  | sort (keys : List Expression) (child : Plan)
  | distinct (child : Plan)
  | orderedDistinct (child : Plan)
  | tableAlias (name : String) (child : Plan)
  | subqueryAlias (name : String) (child : Plan)
  | crossJoin (left right : Plan)
  | showTables (database : Option String)
  | createTable (database : Option String) (name : String) (tableSchema : Schema)
  | pushdownProjectionTable (columns : List String) (inner : Table)
  | pushdownProjectionAndFiltersTable (columns handled : List Expression) (inner : Table)

/-- The direct children of a plan node. -/
def Plan.children : Plan → List Plan
  | .project _ c => [c]
  | .filter _ c => [c]
  | .sort _ c => [c]
  | .distinct c => [c]
  | .orderedDistinct c => [c]
  | .tableAlias _ c => [c]
  | .subqueryAlias _ c => [c]
  | .crossJoin l r => [l, r]
  | _ => []

/-- The column a projected expression contributes to a Project schema;
meaningful once the expression is a resolved field. -/
def Expression.toColumn : Expression → Column
  | .getField _ ty tb nm nu => ⟨nm, ty, tb, nu⟩
  | .uCol tb nm => ⟨nm, .string, tb, true⟩
  | .uFunc nm _ => ⟨nm, .string, "", true⟩
  | _ => ⟨"", .string, "", true⟩

/-- The schema of a plan node (spec section 3): leaves expose their table
schema, unary nodes their child schema, a join the concatenation, a
projection the columns of its expressions. -/
def Plan.schema : Plan → Schema
  | .unresolvedTable _ => []
  | .resolvedTable t => t.schema
  | .project exprs _ => exprs.map Expression.toColumn
  | .filter _ c => c.schema
  | .sort _ c => c.schema
  | .distinct c => c.schema
  | .orderedDistinct c => c.schema
  | .tableAlias _ c => c.schema
  | .subqueryAlias _ c => c.schema
  | .crossJoin l r => l.schema ++ r.schema
  | .showTables _ => [⟨"table", .string, "", false⟩]
  | .createTable .. => []
  | .pushdownProjectionTable _ t => t.schema
  | .pushdownProjectionAndFiltersTable _ _ t => t.schema

/-- A plan is resolved when every descendant node and expression is
resolved (spec section 3); introspection nodes are resolved once their
database slot is filled. -/
def Plan.resolved : Plan → Bool
  | .unresolvedTable _ => false
  | .resolvedTable _ => true
  | .project exprs c => c.resolved && exprs.all Expression.resolved
  | .filter e c => c.resolved && e.resolved
  | .sort ks c => c.resolved && ks.all Expression.resolved
  | .distinct c => c.resolved
  | .orderedDistinct c => c.resolved
  | .tableAlias _ c => c.resolved
  | .subqueryAlias _ c => c.resolved
  | .crossJoin l r => l.resolved && r.resolved
  | .showTables db => db.isSome
  | .createTable db _ _ => db.isSome
  | .pushdownProjectionTable .. => true
  | .pushdownProjectionAndFiltersTable .. => true

/-- Bottom-up node rewrite (spec section 4.1): children are transformed
first, the node is rebuilt with the rewritten children, and the function is
applied to the rebuilt node; an error aborts the traversal. -/
def Plan.transformUpM {M : Type → Type} [Monad M] (f : Plan → M Plan) : Plan → M Plan
  | .project exprs c => do f (.project exprs (← Plan.transformUpM f c))
  | .filter e c => do f (.filter e (← Plan.transformUpM f c))
  | .sort ks c => do f (.sort ks (← Plan.transformUpM f c))
  | .distinct c => do f (.distinct (← Plan.transformUpM f c))
  | .orderedDistinct c => do f (.orderedDistinct (← Plan.transformUpM f c))
  | .tableAlias nm c => do f (.tableAlias nm (← Plan.transformUpM f c))
  | .subqueryAlias nm c => do f (.subqueryAlias nm (← Plan.transformUpM f c))
  | .crossJoin l r => do
      f (.crossJoin (← Plan.transformUpM f l) (← Plan.transformUpM f r))
  | n => f n

/-- Bottom-up expression rewrite over a whole plan (spec sections 4.1 and
4.9 pass 1): every expression of every node of the tree is rewritten with
`Expression.transformUpM`; the node structure is untouched. -/
def Plan.transformExpressionsUpM {M : Type → Type} [Monad M]
    (g : Expression → M Expression) : Plan → M Plan
  | .project exprs c => do
      let c2 ← Plan.transformExpressionsUpM g c
      let es2 ← Expression.transformUpMList g exprs
      pure (.project es2 c2)
  | .filter e c => do
      let c2 ← Plan.transformExpressionsUpM g c
      let e2 ← Expression.transformUpM g e
      pure (.filter e2 c2)
  | .sort ks c => do
      let c2 ← Plan.transformExpressionsUpM g c
      let ks2 ← Expression.transformUpMList g ks
      pure (.sort ks2 c2)
  | .distinct c => do pure (.distinct (← Plan.transformExpressionsUpM g c))
  | .orderedDistinct c => do pure (.orderedDistinct (← Plan.transformExpressionsUpM g c))
  | .tableAlias nm c => do pure (.tableAlias nm (← Plan.transformExpressionsUpM g c))
  | .subqueryAlias nm c => do pure (.subqueryAlias nm (← Plan.transformExpressionsUpM g c))
  | .crossJoin l r => do
      pure (.crossJoin (← Plan.transformExpressionsUpM g l)
        (← Plan.transformExpressionsUpM g r))
  | n => pure n

/-- Lookup in an association list whose values are accumulated lists; a
missing key reads as the empty list, as a Go map of slices does. -/
def lookupD {α : Type} (m : List (String × List α)) (k : String) : List α :=
  (m.lookup k).getD []

/-- The effect of the Go statement m[k] = append(m[k], v) on an
association list: the key's accumulated list grows by v. -/
def appendAL {α : Type} (k : String) (v : α) (m : List (String × List α)) :
    List (String × List α) :=
  (k, lookupD m k ++ [v]) :: m

/-- dedupStrings (src/database.go lines 393-403): keep the first occurrence
of each string. `seen` is the set of strings already kept. -/
def dedupGo (seen : List String) : List String → List String
  | [] => []
  | s :: rest =>
      if seen.contains s then dedupGo seen rest
      else s :: dedupGo (s :: seen) rest

/-- dedupStrings (src/database.go lines 393-403). -/
def dedupStrings (xs : List String) : List String := dedupGo [] xs

/-- resolveTables (src/database.go lines 209-231): transform up, skip
resolved nodes, replace an UnresolvedTable by the catalog table of the
current database or fail with the catalog's TableNotFound. -/
def resolveTables (a : Analyzer) (n : Plan) : Except AErr Plan :=
  Plan.transformUpM
    (fun m =>
      if m.resolved then .ok m
      else
        match m with
        | .unresolvedTable nm => (a.catalog.table a.currentDatabase nm).map .resolvedTable
        | m => .ok m)
    n

/-- The state qualifyColumns accumulates while it traverses the tree
(src/database.go lines 117-125): the visible tables, the alias map and the
column index mapping a column name to the tables that carry it. -/
structure QState where
  tables : List (String × Plan)
  tableAliases : List (String × String)
  colIndex : List (String × List String)

/-- The empty qualifyColumns state. -/
def QState.empty : QState := ⟨[], [], []⟩

/-- indexCols (src/database.go lines 121-125): record, for every column of
the schema, that the table carries that column name. -/
def indexCols (table : String) (schema : Schema)
    (ci : List (String × List String)) : List (String × List String) :=
  schema.foldl (fun acc col => appendAL col.name table acc) ci

/-- The per-node bookkeeping of qualifyColumns (src/database.go lines
129-141): a TableAlias over a table only feeds the alias map; a TableAlias
over anything else and every table node feed the table map and the column
index. -/
def qualifyNodeRegister (st : QState) (m : Plan) : QState :=
  match m with
  | .tableAlias nm child =>
      match child with
      | .resolvedTable t => { st with tableAliases := (nm, t.name) :: st.tableAliases }
      | _ =>
          { st with
            tables := (nm, child) :: st.tables
            colIndex := indexCols nm (Plan.schema (.tableAlias nm child)) st.colIndex }
  | .resolvedTable t =>
      { st with
        tables := (t.name, .resolvedTable t) :: st.tables
        colIndex := indexCols t.name t.schema st.colIndex }
  | _ => st

/-- The expression rewrite of qualifyColumns (src/database.go lines
143-180). An unresolved column with no qualifier is qualified through the
column index: no table is ColumnTableNotFound, one table qualifies it,
several are ambiguous. A qualified column goes through the alias map and
must then name a known table. -/
def qualifyExpr (st : QState) (e : Expression) : Except AErr Expression :=
  match e with
  | .uCol t c =>
      if t == "" then
        match dedupStrings (lookupD st.colIndex c) with
        | [] => .error (.columnTableNotFound "" c)
        | [tbl] => .ok (.uCol tbl c)
        | ts => .error (.ambiguousColumnName c (String.intercalate ", " ts))
      else
        let t2 := match st.tableAliases.lookup t with
                  | some real => real
                  | none => t
        if (st.tables.lookup t2).isSome then .ok (.uCol t2 c)
        else .error (.tableNotFound t2)
  | e => .ok e

/-- Lift an Except computation into the stateful traversal monad. -/
def liftE {σ α : Type} (x : Except AErr α) : StateT σ (Except AErr) α :=
  fun s => x.map (fun v => (v, s))

/-- qualifyColumns (src/database.go lines 115-182): one bottom-up traversal
that first registers the node in the accumulated state and then rewrites
the expressions of the subtree with the state seen so far. -/
def qualifyColumns (a : Analyzer) (n : Plan) : Except AErr Plan :=
  StateT.run'
    (Plan.transformUpM
      (fun m => do
        modify (fun st => qualifyNodeRegister st m)
        let st ← get
        liftE (Plan.transformExpressionsUpM (fun e => qualifyExpr st e) m))
      n)
    QState.empty

/-- resolveDatabase (src/database.go lines 184-207): only the root node is
inspected; a ShowTables or CreateTable root gets the catalog's current
database in its database slot (the Go code assigns the slot in place and
returns the node), a catalog miss propagates, and any other root is
returned as it is. -/
def resolveDatabase (a : Analyzer) (n : Plan) : Except AErr Plan :=
  match n with
  | .showTables _ =>
      match a.catalog.database a.currentDatabase with
      | .error e => .error e
      | .ok db => .ok (.showTables (some db.name))
  | .createTable _ nm s =>
      match a.catalog.database a.currentDatabase with
      | .error e => .error e
      | .ok db => .ok (.createTable (some db.name) nm s)
  | n => .ok n

/-- The value of the colMap of resolveColumns: for each column name, the
(index, column) pairs in concatenated children order. -/
abbrev ColMap := List (String × List (Nat × Column))

/-- The inner loop of resolveColumns (src/database.go lines 286-289): add
every column of one schema to the map, numbering on from idx. -/
def addCols : Nat → Schema → ColMap → ColMap
  | _, [], m => m
  | idx, col :: rest, m => addCols (idx + 1) rest (appendAL col.name (idx, col) m)

/-- The colMap loop of resolveColumns (src/database.go lines 279-290):
children schemas are concatenated in declaration order; an unresolved child
aborts the construction and the node is left alone. -/
def buildColMapAux : Nat → ColMap → List Plan → Option ColMap
  | _, m, [] => some m
  | idx, m, ch :: rest =>
      if ch.resolved then buildColMapAux (idx + ch.schema.length) (addCols idx ch.schema m) rest
      else none

/-- The colMap of a node's children (src/database.go lines 279-290). -/
def buildColMap (cs : List Plan) : Option ColMap := buildColMapAux 0 [] cs

/-- The expression rewrite of resolveColumns (src/database.go lines
292-331): an unresolved column is looked up by name, then the first entry
whose source is the column's table wins; a miss on either step is
ColumnTableNotFound. -/
def resolveColumnExpr (colMap : ColMap) (e : Expression) : Except AErr Expression :=
  match e with
  | .uCol t c =>
      match colMap.lookup c with
      | none => .error (.columnTableNotFound t c)
      | some infos =>
          match infos.find? (fun ci => ci.2.source == t) with
          | none => .error (.columnTableNotFound t c)
          | some ci => .ok (.getField ci.1 ci.2.typ ci.2.source ci.2.name ci.2.nullable)
  | e => .ok e

/-- The per-node action of resolveColumns (src/database.go lines 273-332):
skip resolved nodes, leave the node alone when a child is unresolved,
otherwise rewrite its expressions through the colMap. The Go closure checks
n.Resolved() again inside the expression rewrite; n is the visited node. -/
def resolveColumnsNode (m : Plan) : Except AErr Plan :=
  if m.resolved then .ok m
  else
    match buildColMap m.children with
    | none => .ok m
    | some cm =>
        Plan.transformExpressionsUpM
          (fun e => if m.resolved then .ok e else resolveColumnExpr cm e) m

/-- resolveColumns (src/database.go lines 271-333). -/
def resolveColumns (a : Analyzer) (n : Plan) : Except AErr Plan :=
  Plan.transformUpM resolveColumnsNode n

/-- The star expansion loop of resolveStar (src/database.go lines 254-258):
one GetField per child column, numbered from idx. The Go code builds each
field with the four-argument constructor NewGetField, which carries no
table, so the field's table is empty (spec section 4.7 writes the expansion
as GetField(i, type, name, nullable)). -/
def starFields : Nat → Schema → List Expression
  | _, [] => []
  | idx, col :: rest => .getField idx col.typ "" col.name col.nullable :: starFields (idx + 1) rest

/-- The per-node action of resolveStar (src/database.go lines 235-263):
skip resolved nodes; a Project whose expression list is exactly one Star is
rebuilt with the expanded field list over the child schema. -/
def resolveStarNode (m : Plan) : Except AErr Plan :=
  if m.resolved then .ok m
  else
    match m with
    | .project exprs child =>
        if exprs.length != 1 then .ok (.project exprs child)
        else
          match exprs.head? with
          | some .star => .ok (.project (starFields 0 child.schema) child)
          | _ => .ok (.project exprs child)
    | m => .ok m

/-- resolveStar (src/database.go lines 233-264). -/
def resolveStar (a : Analyzer) (n : Plan) : Except AErr Plan :=
  Plan.transformUpM resolveStarNode n

/-- resolveFunctions (src/database.go lines 335-370): skip resolved nodes
and expressions; an UnresolvedFunction is replaced by the catalog factory's
result, and factory errors propagate. -/
def resolveFunctions (a : Analyzer) (n : Plan) : Except AErr Plan :=
  Plan.transformUpM
    (fun m =>
      if m.resolved then .ok m
      else
        Plan.transformExpressionsUpM
          (fun e =>
            if e.resolved then .ok e
            else
              match e with
              | .uFunc nm args => do
                  let f ← a.catalog.function nm
                  f args
              | e => .ok e)
          m)
    n

/-- The subtree scan of optimizeDistinct (src/database.go lines 376-382):
a bottom-up traversal that records whether any visited node is a Sort. -/
def isSortedCheck (m : Plan) : StateM Bool Plan := do
  match m with
  | .sort ks c => do
      set true
      pure (.sort ks c)
  | m => pure m

/-- optimizeDistinct (src/database.go lines 372-391): a Distinct root whose
subtree contains a Sort anywhere becomes OrderedDistinct over the same
child; everything else is returned unchanged. -/
def optimizeDistinct (a : Analyzer) (node : Plan) : Except AErr Plan :=
  match node with
  | .distinct child =>
      let r := (Plan.transformUpM isSortedCheck (.distinct child)).run false
      if r.2 then .ok (.orderedDistinct child) else .ok (.distinct child)
  | node => .ok node

/-- Modelled from the spec (section 4.9, glossary): splitExpression flattens
an expression over top-level And into its conjuncts. -/
def splitExpression : Expression → List Expression
  | .and l r => splitExpression l ++ splitExpression r
  | e => [e]

/-- Modelled from the spec (section 4.9): the conjuncts minus the handled
filters, equality by structural expression match. -/
def getUnhandledFilters (all handled : List Expression) : List Expression :=
  all.filter (fun f => !(handled.contains f))

/-- Modelled from the spec (section 4.9): JoinAnd folds a non-empty
expression list back into a left-nested And. -/
def joinAnd : List Expression → Expression
  | [] => .star
  | e :: es => es.foldl (fun l r => Expression.and l r) e

/-- The per-table filter accumulator of pushdown pass 2. -/
abbrev Filters := List (String × List Expression)

/-- Modelled from the spec (section 4.9): merging filter maps appends the
expressions of the second map to the matching keys of the first. -/
def Filters.merge (f f2 : Filters) : Filters :=
  f2.foldl (fun acc kv => kv.2.foldl (fun acc2 e => appendAL kv.1 e acc2) acc) f

/-- The distinct tables mentioned by the GetField leaves of an expression. -/
def Expression.tables (e : Expression) : List String :=
  dedupStrings (e.getFields.map Expression.gfTable)

/-- Modelled from the spec (section 4.9 pass 2): split a filter predicate
into conjuncts and keep, per table, the conjuncts that mention exactly that
one table; constant conjuncts and conjuncts over several tables are
dropped. -/
def exprToTableFilters (e : Expression) : Filters :=
  (splitExpression e).foldl
    (fun acc c =>
      match c.tables with
      | [t] => appendAL t c acc
      | _ => acc)
    []

/-- The used-column state of pushdown pass 1 (src/database.go lines
411-417): the (table, field) pairs already seen, the distinct field names
per table and the distinct GetField expressions per table. -/
structure CollectState where
  tableFields : List (String × String)
  fieldsByTable : List (String × List String)
  exprsByTable : List (String × List Expression)

/-- The empty used-column state. -/
def CollectState.empty : CollectState := ⟨[], [], []⟩

/-- One step of pushdown pass 1 (src/database.go lines 423-434): the first
occurrence of each (table, field) pair is retained in encounter order. -/
def collectField (e : Expression) : StateM CollectState Expression := do
  match e with
  | .getField i ty tb nm nu => do
      modify (fun st =>
        if st.tableFields.contains (tb, nm) then st
        else
          { tableFields := (tb, nm) :: st.tableFields
            fieldsByTable := appendAL tb nm st.fieldsByTable
            exprsByTable := appendAL tb (.getField i ty tb nm nu) st.exprsByTable })
      pure (.getField i ty tb nm nu)
  | e => pure e

/-- One step of pushdown pass 2 (src/database.go lines 441-451): each
Filter node's predicate feeds the per-table filter accumulator. -/
def collectFilterNode (m : Plan) : StateM Filters Plan := do
  match m with
  | .filter e c => do
      modify (fun fs => Filters.merge fs (exprToTableFilters e))
      pure (.filter e c)
  | m => pure m

/-- fixFieldIndexes on one GetField (src/database.go lines 548-564): the
index becomes the index of the first column of the schema with the field's
name, everything else is kept from the original; a miss is FieldMissing. -/
def fixGF (schema : Schema) (e : Expression) : Except AErr Expression :=
  match e with
  | .getField _ ty tb nm nu =>
      match schema.findIdx? (fun col => col.name == nm) with
      | some i => .ok (.getField i ty tb nm nu)
      | none => .error (.fieldMissing nm)
  | e => .ok e

/-- fixFieldIndexes (src/database.go lines 543-568): rewrite every GetField
inside the expression against the target schema. -/
def fixFieldIndexes (schema : Schema) (e : Expression) : Except AErr Expression :=
  Expression.transformUpM (fixGF schema) e

/-- fixFieldIndexesOnExpressions (src/database.go lines 530-541). -/
def fixFieldIndexesOnExpressions (schema : Schema) :
    List Expression → Except AErr (List Expression)
  | [] => .ok []
  | e :: es => do
      pure ((← fixFieldIndexes schema e) :: (← fixFieldIndexesOnExpressions schema es))

/-- The rewrite of pushdown pass 3 (src/database.go lines 462-527), with
the mutable handledFilters accumulator as traversal state. A Filter is
untouched while the accumulator is empty, loses its handled conjuncts
otherwise and disappears entirely when none is left. A capable scan first
appends the filters its HandledFilters keeps — as returned, before any
re-indexing — to the accumulator, then is wrapped with the used columns and
the handled filters re-indexed against its own schema. Already wrapped
scans are returned unchanged. -/
def pushdownVisitor (fieldsByTable : List (String × List String))
    (exprsByTable : List (String × List Expression)) (fls : Filters) (m : Plan) :
    StateT (List Expression) (Except AErr) Plan :=
  match m with
  | .filter e child => do
      let handledFilters ← get
      if handledFilters.length == 0 then pure (.filter e child)
      else
        let unhandled := getUnhandledFilters (splitExpression e) handledFilters
        if unhandled.length == 0 then pure child
        else pure (.filter (joinAnd unhandled) child)
  | .pushdownProjectionAndFiltersTable cols handled t =>
      pure (.pushdownProjectionAndFiltersTable cols handled t)
  | .pushdownProjectionTable cols t => pure (.pushdownProjectionTable cols t)
  | .resolvedTable t =>
      match t.capability with
      | .pushdownProjectionAndFilters handler => do
          let cols := lookupD exprsByTable t.name
          let tableFilters := lookupD fls t.name
          let handled := handler tableFilters
          modify (fun hf => hf ++ handled)
          let cols2 ← liftE (fixFieldIndexesOnExpressions t.schema cols)
          let handled2 ← liftE (fixFieldIndexesOnExpressions t.schema handled)
          pure (.pushdownProjectionAndFiltersTable cols2 handled2 t)
      | .pushdownProjection =>
          pure (.pushdownProjectionTable (lookupD fieldsByTable t.name) t)
      | .none => pure (.resolvedTable t)
  | m => pure m

/-- pushdown (src/database.go lines 405-528): a no-op on unresolved plans;
otherwise pass 1 collects the used columns of the whole tree, pass 2
collects the single-table filter conjuncts, and pass 3 rewrites bottom-up
so scans are wrapped before their enclosing Filter is revisited. -/
def pushdown (a : Analyzer) (n : Plan) : Except AErr Plan :=
  if !n.resolved then .ok n
  else
    let cst := ((Plan.transformExpressionsUpM collectField n).run CollectState.empty).2
    let pr := (Plan.transformUpM collectFilterNode n).run []
    ((Plan.transformUpM (pushdownVisitor cst.fieldsByTable cst.exprsByTable pr.2) pr.1).run
        []).map
      (fun r => r.1)

/-- resolveSubqueries with an explicit recursive analyze (src/database.go
lines 98-113): each SubqueryAlias child is analyzed in full and the alias
rebuilt over the result. -/
def resolveSubqueriesWith (analyze : Plan → Except AErr Plan) (n : Plan) :
    Except AErr Plan :=
  Plan.transformUpM
    (fun m =>
      match m with
      | .subqueryAlias nm child => do
          let child2 ← analyze child
          .ok (.subqueryAlias nm child2)
      | m => .ok m)
    n

/-- The whole pipeline in its fixed order, with a recursion budget for the
subquery rule (the Go original recurses without a budget; running out of
budget leaves a subquery child unanalyzed). -/
def analyzeFuel : Nat → Analyzer → Plan → Except AErr Plan
  | 0, _, n => .ok n
  | fuel + 1, a, n => do
      let n ← resolveSubqueriesWith (analyzeFuel fuel a) n
      let n ← resolveTables a n
      let n ← qualifyColumns a n
      let n ← resolveColumns a n
      let n ← resolveDatabase a n
      let n ← resolveStar a n
      let n ← resolveFunctions a n
      let n ← pushdown a n
      optimizeDistinct a n

/-- resolveSubqueries (src/database.go lines 98-113). -/
def resolveSubqueries (a : Analyzer) (n : Plan) : Except AErr Plan :=
  resolveSubqueriesWith (analyzeFuel a.depth a) n

/-- A named rule of the pipeline (spec section 2). -/
structure Rule where
  name : String
  apply : Analyzer → Plan → Except AErr Plan

/-- DefaultRules (src/database.go lines 74-85): the fixed, ordered default
rule list of the analyzer. -/
def DefaultRules : List Rule :=
  [⟨"resolve_subqueries", resolveSubqueries⟩,
   ⟨"resolve_tables", resolveTables⟩,
   ⟨"qualify_columns", qualifyColumns⟩,
   ⟨"resolve_columns", resolveColumns⟩,
   ⟨"resolve_database", resolveDatabase⟩,
   ⟨"resolve_star", resolveStar⟩,
   ⟨"resolve_functions", resolveFunctions⟩,
   ⟨"pushdown", pushdown⟩,
   ⟨"optimize_distinct", optimizeDistinct⟩]

/-- Analyze (spec section 2): apply the rules of the default list in
order; the first error aborts the pipeline. -/
def Analyzer.analyze (a : Analyzer) (n : Plan) : Except AErr Plan :=
  DefaultRules.foldlM (fun p r => r.apply a p) n

/-- Claim-side reading of the column binding of resolveColumns: the first
column of the concatenated children schemas named c with source t, together
with its position in the concatenation. -/
def firstColWithIdx (t c : String) (cols : List Column) : Option (Nat × Column) :=
  cols.enum.find? (fun p => p.2.name == c && p.2.source == t)

/-- The (absolute index, column) entries of a schema named k, numbering on
from idx; the shape the colMap of resolveColumns stores per name. -/
def entriesNamed (k : String) : Nat → Schema → List (Nat × Column)
  | _, [] => []
  | idx, col :: rest =>
      if col.name == k then (idx, col) :: entriesNamed k (idx + 1) rest
      else entriesNamed k (idx + 1) rest

/-- Claim-side reading of the scope qualifyColumns builds per visited node:
the (name, schema) pairs the node contributes to the column index. A
TableAlias over a table contributes nothing there (it only feeds the alias
map). -/
def scopeEntries : Plan → List (String × Schema)
  | .tableAlias nm child =>
      match child with
      | .resolvedTable _ => []
      | _ => [(nm, Plan.schema (.tableAlias nm child))]
  | .resolvedTable t => [(t.name, t.schema)]
  | _ => []

/-- Claim-side reading of the ambiguity test of qualifyColumns: the
distinct in-scope tables, in first-appearance order, whose schema carries a
column named c. -/
def tablesWithColumn (visited : List Plan) (c : String) : List String :=
  dedupStrings
    ((visited.flatMap scopeEntries).filterMap
      (fun e => if e.2.any (fun col => col.name == c) then some e.1 else none))

/-- The qualifyColumns state after visiting the given nodes in order. -/
def registerAll (visited : List Plan) : QState :=
  visited.foldl qualifyNodeRegister QState.empty

/-- Whether a schema has a column of the given name. -/
def hasColumn (s : Schema) (nm : String) : Bool :=
  s.any (fun col => col.name == nm)

mutual

/-- Claim-side reading of fixFieldIndexes: every GetField keeps its type,
table, name and nullability and takes the index of the column of the
target schema with its name; other expressions are rebuilt unchanged. -/
def reindexSpec (s : Schema) : Expression → Expression
  | .getField i ty tb nm nu =>
      match s.findIdx? (fun col => col.name == nm) with
      | some j => .getField j ty tb nm nu
      | none => .getField i ty tb nm nu
  | .uFunc nm args => .uFunc nm (reindexSpecList s args)
  | .eq a b => .eq (reindexSpec s a) (reindexSpec s b)
  | .and a b => .and (reindexSpec s a) (reindexSpec s b)
  | .or a b => .or (reindexSpec s a) (reindexSpec s b)
  | .not a => .not (reindexSpec s a)
  | e => e

/-- `reindexSpec` on each member of a list. -/
def reindexSpecList (s : Schema) : List Expression → List Expression
  | [] => []
  | e :: es => reindexSpec s e :: reindexSpecList s es

end

/-- Whether a plan subtree contains a Sort node anywhere. -/
def Plan.containsSort : Plan → Bool
  | .sort _ _ => true
  | .project _ c => c.containsSort
  | .filter _ c => c.containsSort
  | .distinct c => c.containsSort
  | .orderedDistinct c => c.containsSort
  | .tableAlias _ c => c.containsSort
  | .subqueryAlias _ c => c.containsSort
  | .crossJoin l r => l.containsSort || r.containsSort
  | _ => false

/-- Claim-side reading of optimizeDistinct: a Distinct root becomes
OrderedDistinct over its unmodified child exactly when the subtree rooted
at the Distinct contains a Sort node at any depth. -/
def optimizeDistinctSpec : Plan → Plan
  | .distinct child =>
      if Plan.containsSort (.distinct child) then .orderedDistinct child
      else .distinct child
  | n => n

/-- Whether a plan's root is one of the two nodes resolveDatabase fills. -/
def isShowOrCreate : Plan → Bool
  | .showTables _ => true
  | .createTable .. => true
  | _ => false

/-- The refs table of the spec's star-expansion scenario. -/
def refsTable : Table :=
  ⟨"refs", [⟨"name", .string, "refs", false⟩, ⟨"hash", .string, "refs", false⟩], .none⟩

/-- The commits table of the spec's scenarios. -/
def commitsTable : Table :=
  ⟨"commits", [⟨"hash", .string, "commits", false⟩], .none⟩

/-- The remotes table of the spec's ambiguity scenario. -/
def remotesTable : Table :=
  ⟨"remotes", [⟨"name", .string, "remotes", false⟩], .none⟩

/-- An analyzer over an empty catalog, for concrete runs. -/
def emptyAnalyzer : Analyzer := ⟨⟨[], []⟩, "gitbase", 0⟩

/-- The column-name occurrence list a scope contributes: one entry of the
owning table name per column named c, in scope order; the shape in which
qualifyColumns accumulates its column index. -/
def colOccurrences (entries : List (String × Schema)) (c : String) : List String :=
  entries.flatMap (fun e => (e.2.filter (fun col => col.name == c)).map (fun _ => e.1))

/-- The tables of a scope whose schema carries a column named c, once
each, in scope order. -/
def colCarriers (entries : List (String × Schema)) (c : String) : List String :=
  entries.filterMap (fun e => if e.2.any (fun col => col.name == c) then some e.1 else none)

mutual

/-- A size measure on expressions, for strong induction. -/
def Expression.esize : Expression → Nat
  | .uFunc _ args => 1 + Expression.esizeList args
  | .eq a b => 1 + a.esize + b.esize
  | .and a b => 1 + a.esize + b.esize
  | .or a b => 1 + a.esize + b.esize
  | .not a => 1 + a.esize
  | _ => 1

/-- The size measure on expression lists. -/
def Expression.esizeList : List Expression → Nat
  | [] => 0
  | e :: es => 1 + e.esize + Expression.esizeList es

end

/-- Soundness of fixFieldIndexes on one expression: success means every
referenced field name is on the schema and the result is the claim-side
re-indexing; failure carries a referenced name absent from the schema. -/
def fixSound (S : Schema) (e : Expression) : Prop :=
  match fixFieldIndexes S e with
  | .ok r => (∀ nm ∈ e.getFieldNames, hasColumn S nm = true) ∧ r = reindexSpec S e
  | .error err =>
      ∃ nm, err = .fieldMissing nm ∧ nm ∈ e.getFieldNames ∧ hasColumn S nm = false

/-- Soundness of fixFieldIndexes on an expression list. -/
def fixSoundList (S : Schema) (es : List Expression) : Prop :=
  match Expression.transformUpMList (fixGF S) es with
  | .ok rs =>
      (∀ nm ∈ (Expression.getFieldsList es).map Expression.gfName, hasColumn S nm = true) ∧
        rs = reindexSpecList S es
  | .error err =>
      ∃ nm, err = .fieldMissing nm ∧
        nm ∈ (Expression.getFieldsList es).map Expression.gfName ∧ hasColumn S nm = false

theorem except_bind_error {α β : Type} (x : Except AErr α) (f : α → Except AErr β)
    (err : AErr) (h : x = .error err) : (x >>= f) = .error err := by
  rw [h]
  rfl

theorem except_bind_ok {α β : Type} (x : Except AErr α) (f : α → Except AErr β)
    (v : α) (h : x = .ok v) : (x >>= f) = f v := by
  rw [h]
  rfl

theorem lookup_appendAL {α : Type} (k k2 : String) (v : α) (m : List (String × List α)) :
    List.lookup k2 (appendAL k v m) =
      if k2 == k then some (lookupD m k ++ [v]) else List.lookup k2 m := by
  rw [appendAL, List.lookup_cons]
  cases h : k2 == k <;> simp [h]

theorem lookupD_appendAL {α : Type} (k k2 : String) (v : α) (m : List (String × List α)) :
    lookupD (appendAL k v m) k2 =
      if k2 == k then lookupD m k ++ [v] else lookupD m k2 := by
  rw [lookupD, lookup_appendAL]
  cases h : k2 == k <;> simp [h, lookupD]

theorem lookup_appendAL_none {α : Type} (k k2 : String) (v : α)
    (m : List (String × List α)) :
    List.lookup k2 (appendAL k v m) = none ↔ (k2 == k) = false ∧ List.lookup k2 m = none := by
  rw [lookup_appendAL]
  cases h : k2 == k <;> simp [h]

theorem entriesNamed_append (k : String) (xs ys : Schema) (idx : Nat) :
    entriesNamed k idx (xs ++ ys) =
      entriesNamed k idx xs ++ entriesNamed k (idx + xs.length) ys := by
  induction xs generalizing idx with
  | nil => simp [entriesNamed]
  | cons col rest ih =>
    rw [List.cons_append, entriesNamed, entriesNamed]
    cases h : col.name == k <;>
      simp [h, ih, Nat.add_assoc, Nat.add_comm 1 rest.length]

theorem addCols_lookupD (cols : Schema) (idx : Nat) (m : ColMap) (k : String) :
    lookupD (addCols idx cols m) k = lookupD m k ++ entriesNamed k idx cols := by
  induction cols generalizing idx m with
  | nil => simp [addCols, entriesNamed]
  | cons col rest ih =>
    rw [addCols, ih, lookupD_appendAL, entriesNamed]
    by_cases h : k = col.name
    · subst h
      simp
    · have h1 : (k == col.name) = false := by simp [h]
      have h2 : (col.name == k) = false := by
        simp
        exact fun hc => h hc.symm
      simp [h1, h2]

theorem addCols_lookup_none (cols : Schema) (idx : Nat) (m : ColMap) (k : String) :
    List.lookup k (addCols idx cols m) = none ↔
      List.lookup k m = none ∧ entriesNamed k idx cols = [] := by
  induction cols generalizing idx m with
  | nil => simp [addCols, entriesNamed]
  | cons col rest ih =>
    rw [addCols, ih, lookup_appendAL_none, entriesNamed]
    by_cases h : k = col.name
    · subst h
      simp
    · have h1 : (k == col.name) = false := by simp [h]
      have h2 : (col.name == k) = false := by
        simp
        exact fun hc => h hc.symm
      simp [h1, h2]

theorem buildColMapAux_resolved (cs : List Plan) (idx : Nat) (m : ColMap)
    (h : ∀ ch ∈ cs, ch.resolved = true) :
    ∃ M, buildColMapAux idx m cs = some M ∧
      ∀ k, lookupD M k = lookupD m k ++ entriesNamed k idx (cs.flatMap Plan.schema) ∧
        (List.lookup k M = none ↔
          List.lookup k m = none ∧ entriesNamed k idx (cs.flatMap Plan.schema) = []) := by
  induction cs generalizing idx m with
  | nil =>
    exact ⟨m, rfl, fun k => by simp [entriesNamed]⟩
  | cons ch rest ih =>
    have hch : ch.resolved = true := h ch (by simp)
    obtain ⟨M, hM, hprop⟩ :=
      ih (idx + ch.schema.length) (addCols idx ch.schema m)
        (fun x hx => h x (by simp [hx]))
    refine ⟨M, ?_, ?_⟩
    · rw [buildColMapAux, hch]
      simpa using hM
    · intro k
      have h1 := (hprop k).1
      have h2 := (hprop k).2
      rw [addCols_lookupD] at h1
      rw [addCols_lookup_none] at h2
      constructor
      · rw [h1, List.flatMap_cons, entriesNamed_append, List.append_assoc]
      · rw [h2, List.flatMap_cons, entriesNamed_append, and_assoc, List.append_eq_nil]

theorem find_entriesNamed (t c : String) (cols : Schema) (idx : Nat) :
    (entriesNamed c idx cols).find? (fun ci => ci.2.source == t) =
      (List.enumFrom idx cols).find? (fun p => p.2.name == c && p.2.source == t) := by
  induction cols generalizing idx with
  | nil => rfl
  | cons col rest ih =>
    rw [entriesNamed, List.enumFrom_cons]
    by_cases h : col.name = c
    · have hb : (col.name == c) = true := by simp [h]
      rw [hb, if_pos rfl]
      cases hs : col.source == t with
      | true => simp [List.find?, hb, hs]
      | false => simp [List.find?, hb, hs, ih]
    · have hb : (col.name == c) = false := by simp [h]
      rw [hb]
      simp only [if_neg (by simp : ¬false = true)]
      simp [List.find?, hb, ih]

theorem dedupGo_replicate (k : Nat) (n : String) (seen rest : List String) :
    dedupGo seen (List.replicate (k + 1) n ++ rest) =
      if seen.contains n = true then dedupGo seen rest else n :: dedupGo (n :: seen) rest := by
  induction k generalizing seen with
  | zero =>
    rw [List.replicate_one, List.singleton_append, dedupGo]
  | succ k ih =>
    have hc2 : (n :: seen).contains n = true := by simp [List.contains_cons]
    rw [List.replicate_succ, List.cons_append, dedupGo, ih, ih, hc2]
    cases hc : seen.contains n with
    | true => simp [hc]
    | false => simp [hc]

theorem dedupGo_occ_carriers (entries : List (String × Schema)) (c : String)
    (seen : List String) :
    dedupGo seen (colOccurrences entries c) = dedupGo seen (colCarriers entries c) := by
  induction entries generalizing seen with
  | nil => rfl
  | cons e rest ih =>
    have hocc : colOccurrences (e :: rest) c =
        (e.2.filter (fun col => col.name == c)).map (fun _ => e.1) ++
          colOccurrences rest c := by
      rw [colOccurrences, List.flatMap_cons]
      rfl
    cases hf : e.2.filter (fun col => col.name == c) with
    | nil =>
      have hany : e.2.any (fun col => col.name == c) = false := by
        cases ha : e.2.any (fun col => col.name == c) with
        | false => rfl
        | true =>
          obtain ⟨x, hx, hp⟩ := List.any_eq_true.mp ha
          have hmem : x ∈ e.2.filter (fun col => col.name == c) :=
            List.mem_filter.mpr ⟨hx, hp⟩
          rw [hf] at hmem
          exact absurd hmem (List.not_mem_nil x)
      have hcar : colCarriers (e :: rest) c = colCarriers rest c := by
        rw [colCarriers, List.filterMap_cons, hany]
        simp only [Bool.false_eq_true, if_false]
        rfl
      rw [hocc, hf, hcar, List.map_nil, List.nil_append]
      exact ih seen
    | cons x xs =>
      have hany : e.2.any (fun col => col.name == c) = true := by
        have hmem : x ∈ e.2.filter (fun col => col.name == c) := by
          rw [hf]
          exact List.mem_cons_self x xs
        exact List.any_eq_true.mpr
          ⟨x, (List.mem_filter.mp hmem).1, (List.mem_filter.mp hmem).2⟩
      have hcar : colCarriers (e :: rest) c = e.1 :: colCarriers rest c := by
        rw [colCarriers, List.filterMap_cons, hany]
        simp only [if_true]
        rfl
      rw [hocc, hf, List.map_const', List.length_cons, hcar, dedupGo_replicate, dedupGo]
      cases hc : seen.contains e.1 with
      | true => simp [ih]
      | false => simp [ih]

theorem indexCols_lookupD (table : String) (s : Schema)
    (ci : List (String × List String)) (c : String) :
    lookupD (indexCols table s ci) c =
      lookupD ci c ++ (s.filter (fun col => col.name == c)).map (fun _ => table) := by
  induction s generalizing ci with
  | nil => simp [indexCols]
  | cons col rest ih =>
    rw [show indexCols table (col :: rest) ci =
        indexCols table rest (appendAL col.name table ci) from rfl]
    rw [ih, lookupD_appendAL, List.filter_cons]
    by_cases h : col.name = c
    · subst h
      simp
    · have h1 : (c == col.name) = false := by
        simp
        exact fun hc => h hc.symm
      have h2 : (col.name == c) = false := by simp [h]
      simp [h1, h2]

theorem registerAll_colIndex (L : List Plan) (st : QState) (c : String) :
    lookupD (L.foldl qualifyNodeRegister st).colIndex c =
      lookupD st.colIndex c ++ colOccurrences (L.flatMap scopeEntries) c := by
  induction L generalizing st with
  | nil => simp [colOccurrences]
  | cons m rest ih =>
    rw [List.foldl_cons, ih, List.flatMap_cons]
    rw [show colOccurrences (scopeEntries m ++ rest.flatMap scopeEntries) c =
        colOccurrences (scopeEntries m) c ++ colOccurrences (rest.flatMap scopeEntries) c by
      rw [colOccurrences, List.flatMap_append]
      rfl]
    rw [← List.append_assoc]
    congr 1
    cases m with
    | tableAlias nm child =>
      cases child with
      | resolvedTable t =>
        simp [qualifyNodeRegister, scopeEntries, colOccurrences]
      | _ =>
        simp only [qualifyNodeRegister, scopeEntries, colOccurrences, List.flatMap_cons,
          List.flatMap_nil, List.append_nil, indexCols_lookupD]
    | resolvedTable t =>
      simp only [qualifyNodeRegister, scopeEntries, colOccurrences, List.flatMap_cons,
        List.flatMap_nil, List.append_nil, indexCols_lookupD]
    | _ => simp [qualifyNodeRegister, scopeEntries, colOccurrences]

theorem starFields_enumFrom (s : Schema) (i : Nat) :
    starFields i s =
      (List.enumFrom i s).map
        (fun p => Expression.getField p.1 p.2.typ "" p.2.name p.2.nullable) := by
  induction s generalizing i with
  | nil => rfl
  | cons col rest ih => simp [starFields, List.enumFrom_cons, ih]

theorem transformUp_isSorted (p : Plan) (b : Bool) :
    Plan.transformUpM isSortedCheck p b = (p, b || p.containsSort) := by
  induction p generalizing b with
  | crossJoin l r ihl ihr =>
    simp [Plan.transformUpM, isSortedCheck, Plan.containsSort, StateT.run, bind,
      StateT.bind, set, StateT.set, pure, StateT.pure, ihl, ihr, Bool.or_assoc]
  | _ =>
    simp [Plan.transformUpM, isSortedCheck, Plan.containsSort, StateT.run, bind,
      StateT.bind, set, StateT.set, pure, StateT.pure, *]

theorem fixSound_binary (S : Schema) (a b : Expression)
    (mk : Expression → Expression → Expression)
    (hgf : fixGF S (mk (reindexSpec S a) (reindexSpec S b)) =
      .ok (mk (reindexSpec S a) (reindexSpec S b)))
    (htr : fixFieldIndexes S (mk a b) =
      fixFieldIndexes S a >>= fun ra =>
        fixFieldIndexes S b >>= fun rb => fixGF S (mk ra rb))
    (hnames : (mk a b).getFieldNames = a.getFieldNames ++ b.getFieldNames)
    (hre : reindexSpec S (mk a b) = mk (reindexSpec S a) (reindexSpec S b))
    (ha : fixSound S a) (hb : fixSound S b) : fixSound S (mk a b) := by
  unfold fixSound at ha hb ⊢
  rw [htr]
  cases hra : fixFieldIndexes S a with
  | error err =>
      rw [hra] at ha
      rw [except_bind_error _ _ err rfl]
      obtain ⟨nm, hnm, hmem, hcol⟩ := ha
      exact ⟨nm, hnm, by rw [hnames]; exact List.mem_append_left _ hmem, hcol⟩
  | ok ra =>
      rw [hra] at ha
      rw [except_bind_ok _ _ ra rfl]
      cases hrb : fixFieldIndexes S b with
      | error err =>
          rw [hrb] at hb
          rw [except_bind_error _ _ err rfl]
          obtain ⟨nm, hnm, hmem, hcol⟩ := hb
          exact ⟨nm, hnm, by rw [hnames]; exact List.mem_append_right _ hmem, hcol⟩
      | ok rb =>
          rw [hrb] at hb
          rw [except_bind_ok _ _ rb rfl, ha.2, hb.2, hgf]
          refine ⟨?_, ?_⟩
          · intro nm hmem
            rw [hnames] at hmem
            rcases List.mem_append.mp hmem with h | h
            · exact ha.1 nm h
            · exact hb.1 nm h
          · rw [hre]

theorem fixSound_all (S : Schema) : ∀ k : Nat,
    (∀ e : Expression, Expression.esize e ≤ k → fixSound S e) ∧
    (∀ es : List Expression, Expression.esizeList es ≤ k → fixSoundList S es) := by
  intro k
  induction k using Nat.strong_induction_on with
  | _ k ih =>
    constructor
    · intro e hk
      cases e with
      | uCol t n =>
        unfold fixSound
        simp [fixFieldIndexes, Expression.transformUpM, fixGF, reindexSpec,
          Expression.getFieldNames, Expression.getFields]
      | star =>
        unfold fixSound
        simp [fixFieldIndexes, Expression.transformUpM, fixGF, reindexSpec,
          Expression.getFieldNames, Expression.getFields]
      | lit v ty =>
        unfold fixSound
        simp [fixFieldIndexes, Expression.transformUpM, fixGF, reindexSpec,
          Expression.getFieldNames, Expression.getFields]
      | getField i ty tb nm nu =>
        unfold fixSound
        rw [show fixFieldIndexes S (.getField i ty tb nm nu) =
            fixGF S (.getField i ty tb nm nu) from by
          simp only [fixFieldIndexes, Expression.transformUpM]]
        rw [fixGF]
        cases hf : S.findIdx? (fun col => col.name == nm) with
        | some j =>
          have hcol : hasColumn S nm = true := by
            rw [hasColumn, ← List.findIdx?_isSome, hf]
            rfl
          simp [reindexSpec, hf, Expression.getFieldNames, Expression.getFields,
            Expression.gfName, hcol]
        | none =>
          have hcol : hasColumn S nm = false := by
            rw [hasColumn, ← List.findIdx?_isSome, hf]
            rfl
          refine ⟨nm, rfl, ?_, hcol⟩
          simp [Expression.getFieldNames, Expression.getFields, Expression.gfName]
      | eq a b =>
        simp only [Expression.esize] at hk
        exact fixSound_binary S a b .eq rfl
          (by simp only [fixFieldIndexes, Expression.transformUpM])
          (by simp [Expression.getFieldNames, Expression.getFields])
          (by simp only [reindexSpec])
          ((ih a.esize (by omega)).1 a le_rfl) ((ih b.esize (by omega)).1 b le_rfl)
      | and a b =>
        simp only [Expression.esize] at hk
        exact fixSound_binary S a b .and rfl
          (by simp only [fixFieldIndexes, Expression.transformUpM])
          (by simp [Expression.getFieldNames, Expression.getFields])
          (by simp only [reindexSpec])
          ((ih a.esize (by omega)).1 a le_rfl) ((ih b.esize (by omega)).1 b le_rfl)
      | or a b =>
        simp only [Expression.esize] at hk
        exact fixSound_binary S a b .or rfl
          (by simp only [fixFieldIndexes, Expression.transformUpM])
          (by simp [Expression.getFieldNames, Expression.getFields])
          (by simp only [reindexSpec])
          ((ih a.esize (by omega)).1 a le_rfl) ((ih b.esize (by omega)).1 b le_rfl)
      | not a =>
        simp only [Expression.esize] at hk
        have ha := (ih a.esize (by omega)).1 a le_rfl
        unfold fixSound at ha ⊢
        rw [show fixFieldIndexes S (.not a) =
            fixFieldIndexes S a >>= fun ra => fixGF S (.not ra) from by
          simp only [fixFieldIndexes, Expression.transformUpM]]
        cases hra : fixFieldIndexes S a with
        | error err =>
          rw [hra] at ha
          rw [except_bind_error _ _ err rfl]
          obtain ⟨n2, hn2, hmem, hcol⟩ := ha
          exact ⟨n2, hn2,
            by simpa [Expression.getFieldNames, Expression.getFields] using hmem, hcol⟩
        | ok ra =>
          rw [hra] at ha
          rw [except_bind_ok _ _ ra rfl]
          rw [show fixGF S (.not ra) = .ok (.not ra) from rfl]
          refine ⟨?_, ?_⟩
          · intro n2 hmem
            exact ha.1 n2
              (by simpa [Expression.getFieldNames, Expression.getFields] using hmem)
          · rw [ha.2]
            simp only [reindexSpec]
      | uFunc nm args =>
        simp only [Expression.esize] at hk
        have hargs := (ih (Expression.esizeList args) (by omega)).2 args le_rfl
        unfold fixSound
        unfold fixSoundList at hargs
        rw [show fixFieldIndexes S (.uFunc nm args) =
            Expression.transformUpMList (fixGF S) args >>= fun rs => fixGF S (.uFunc nm rs)
            from by simp only [fixFieldIndexes, Expression.transformUpM]]
        cases hrs : Expression.transformUpMList (fixGF S) args with
        | error err =>
          rw [hrs] at hargs
          rw [except_bind_error _ _ err rfl]
          obtain ⟨n2, hn2, hmem, hcol⟩ := hargs
          exact ⟨n2, hn2,
            by simpa [Expression.getFieldNames, Expression.getFields] using hmem, hcol⟩
        | ok rs =>
          rw [hrs] at hargs
          rw [except_bind_ok _ _ rs rfl]
          rw [show fixGF S (.uFunc nm rs) = .ok (.uFunc nm rs) from rfl]
          refine ⟨?_, ?_⟩
          · intro n2 hmem
            exact hargs.1 n2
              (by simpa [Expression.getFieldNames, Expression.getFields] using hmem)
          · rw [hargs.2]
            simp only [reindexSpec]
    · intro es hk
      cases es with
      | nil =>
        unfold fixSoundList
        simp only [Expression.transformUpMList, Expression.getFieldsList, reindexSpecList]
        exact ⟨by simp, rfl⟩
      | cons e rest =>
        simp only [Expression.esizeList] at hk
        have he := (ih e.esize (by omega)).1 e le_rfl
        have hrest := (ih (Expression.esizeList rest) (by omega)).2 rest le_rfl
        unfold fixSound at he
        unfold fixSoundList at hrest ⊢
        rw [show Expression.transformUpMList (fixGF S) (e :: rest) =
            fixFieldIndexes S e >>= fun r =>
              Expression.transformUpMList (fixGF S) rest >>= fun rs =>
                pure (r :: rs) from by
          simp only [Expression.transformUpMList, fixFieldIndexes]]
        cases hre2 : fixFieldIndexes S e with
        | error err =>
          rw [hre2] at he
          rw [except_bind_error _ _ err rfl]
          obtain ⟨n2, hn2, hmem, hcol⟩ := he
          refine ⟨n2, hn2, ?_, hcol⟩
          simp only [Expression.getFieldsList, List.map_append]
          exact List.mem_append_left _
            (by simpa [Expression.getFieldNames] using hmem)
        | ok r =>
          rw [hre2] at he
          rw [except_bind_ok _ _ r rfl]
          cases hrs : Expression.transformUpMList (fixGF S) rest with
          | error err =>
            rw [hrs] at hrest
            rw [except_bind_error _ _ err rfl]
            obtain ⟨n2, hn2, hmem, hcol⟩ := hrest
            refine ⟨n2, hn2, ?_, hcol⟩
            simp only [Expression.getFieldsList, List.map_append]
            exact List.mem_append_right _ hmem
          | ok rs =>
            rw [hrs] at hrest
            rw [except_bind_ok _ _ rs rfl]
            rw [show (pure (r :: rs) : Except AErr (List Expression)) = .ok (r :: rs)
              from rfl]
            refine ⟨?_, ?_⟩
            · intro n2 hmem
              simp only [Expression.getFieldsList, List.map_append] at hmem
              rcases List.mem_append.mp hmem with h | h
              · exact he.1 n2 (by rw [Expression.getFieldNames]; exact h)
              · exact hrest.1 n2 h
            · rw [he.2, hrest.2]
              simp only [reindexSpecList]

/-- C1: for a node all of whose children are resolved, resolveColumns
rewrites an UnresolvedColumn(t, c) to the GetField whose index is the
position of the first column named c with source t in the concatenation of
the children schemas, copying that column's type, source, name and
nullability; when no column named c exists, or none of them has source t,
the rewrite fails with ColumnTableNotFound(t, c). -/
theorem resolveColumns_first_match (cs : List Plan) (t c : String)
    (h : ∀ ch ∈ cs, ch.resolved = true) :
    ∃ cm, buildColMap cs = some cm ∧
      resolveColumnExpr cm (.uCol t c) =
        (match firstColWithIdx t c (cs.flatMap Plan.schema) with
         | some p => .ok (.getField p.1 p.2.typ p.2.source p.2.name p.2.nullable)
         | none => .error (.columnTableNotFound t c)) := by
  obtain ⟨M, hM, hprop⟩ := buildColMapAux_resolved cs 0 [] h
  refine ⟨M, hM, ?_⟩
  have hD := (hprop c).1
  have hN := (hprop c).2
  simp only [lookupD, List.lookup_nil, Option.getD_none, List.nil_append, true_and]
    at hD hN
  have henum : firstColWithIdx t c (cs.flatMap Plan.schema) =
      (entriesNamed c 0 (cs.flatMap Plan.schema)).find? (fun ci => ci.2.source == t) := by
    rw [firstColWithIdx]
    exact (find_entriesNamed t c (cs.flatMap Plan.schema) 0).symm
  rw [resolveColumnExpr]
  cases hl : List.lookup c M with
  | none =>
    have he : entriesNamed c 0 (cs.flatMap Plan.schema) = [] := hN.mp hl
    rw [henum, he]
    rfl
  | some infos =>
    have hinfos : infos = entriesNamed c 0 (cs.flatMap Plan.schema) := by
      rw [← hD, hl]
      rfl
    rw [henum, ← hinfos]
    cases hf : infos.find? (fun ci => ci.2.source == t) with
    | none => simp [hf]
    | some ci => simp [hf]

/-- Witness for C1: over the children [commits, refs], the column
refs.hash resolves to index 2 of the concatenated schema with the
column's type, source, name and nullability. -/
theorem resolveColumns_first_match_witness :
    ∃ cm, buildColMap [.resolvedTable commitsTable, .resolvedTable refsTable] = some cm ∧
      resolveColumnExpr cm (.uCol "refs" "hash") =
        .ok (.getField 2 .string "refs" "hash" false) :=
  resolveColumns_first_match [.resolvedTable commitsTable, .resolvedTable refsTable]
    "refs" "hash" (by decide)

/-- C2: an unqualified column c is rewritten by qualifyColumns according to
the number of distinct in-scope tables whose schema carries a column named
c: none is ColumnTableNotFound("", c), exactly one table qualifies the
column with that table, and several are AmbiguousColumnName(c, tables)
listing those tables. -/
theorem qualifyColumns_unqualified (L : List Plan) (c : String) :
    qualifyExpr (registerAll L) (.uCol "" c) =
      (match tablesWithColumn L c with
       | [] => .error (.columnTableNotFound "" c)
       | [t] => .ok (.uCol t c)
       | ts => .error (.ambiguousColumnName c (String.intercalate ", " ts))) := by
  have hidx : dedupStrings (lookupD (registerAll L).colIndex c) = tablesWithColumn L c := by
    rw [registerAll, registerAll_colIndex]
    rw [show lookupD QState.empty.colIndex c = [] from rfl, List.nil_append]
    rw [dedupStrings, dedupGo_occ_carriers]
    rfl
  rw [qualifyExpr]
  rw [if_pos (show (("" : String) == "") = true from rfl)]
  rw [hidx]

/-- C3: in the rewrite pass of pushdown, a Filter is left untouched while
the handled-filters accumulator is empty; otherwise the conjuncts of its
predicate minus the accumulator (by structural equality) remain: the
Filter is replaced by its child when nothing remains and by a Filter over
the conjunction of the remainder otherwise, the accumulator unchanged. -/
theorem pushdown_filter_rewrite (fbt : List (String × List String))
    (ebt : List (String × List Expression)) (fls : Filters) (e : Expression)
    (child : Plan) (hf : List Expression) :
    (pushdownVisitor fbt ebt fls (.filter e child)).run hf =
      .ok (match hf with
           | [] => (Plan.filter e child, hf)
           | _ =>
             match getUnhandledFilters (splitExpression e) hf with
             | [] => (child, hf)
             | _ => (Plan.filter (joinAnd (getUnhandledFilters (splitExpression e) hf)) child,
                 hf)) := by
  rw [pushdownVisitor]
  cases hf with
  | nil => rfl
  | cons h0 t0 =>
    cases hu : getUnhandledFilters (splitExpression e) (h0 :: t0) with
    | nil =>
      simp [StateT.run, bind, StateT.bind, get, getThe, MonadStateOf.get, StateT.get,
        pure, StateT.pure, Except.pure, Except.bind, hu]
    | cons a b =>
      simp [StateT.run, bind, StateT.bind, get, getThe, MonadStateOf.get, StateT.get,
        pure, StateT.pure, Except.pure, Except.bind, hu]

/-- C4 counterexample: expanding the star of
Project([Star], ResolvedTable(refs)) yields GetFields whose source table
is empty, not the column's source "refs" as the claim states. -/
theorem resolveStar_drops_source :
    resolveStar emptyAnalyzer (.project [.star] (.resolvedTable refsTable)) =
      .ok (.project
        [.getField 0 .string "" "name" false, .getField 1 .string "" "hash" false]
        (.resolvedTable refsTable)) ∧
    ¬ ([Expression.getField 0 .string "" "name" false,
        .getField 1 .string "" "hash" false] =
       [Expression.getField 0 .string "refs" "name" false,
        .getField 1 .string "refs" "hash" false]) := by
  constructor
  · rfl
  · intro h
    simp only [List.cons.injEq, Expression.getField.injEq] at h
    exact absurd h.1.2.2.1 (by decide)

/-- C4 (amended): a Project whose sole expression is Star is rewritten by
resolveStar to a Project with one expression per child column, the i-th
being a GetField with index i and the type, name and nullability of the
i-th child column and an empty source table. -/
theorem resolveStar_expansion (child : Plan) :
    resolveStarNode (.project [.star] child) =
      .ok (.project
        (child.schema.enum.map
          (fun p => Expression.getField p.1 p.2.typ "" p.2.name p.2.nullable))
        child) ∧
    (child.schema.enum.map
        (fun p => Expression.getField p.1 p.2.typ "" p.2.name p.2.nullable)).length =
      child.schema.length := by
  constructor
  · rw [resolveStarNode]
    simp [Plan.resolved, Expression.resolved, starFields_enumFrom, List.enum]
  · simp

/-- C5: fixFieldIndexes against a target schema S rewrites every GetField
to the index of the column named alike in S, keeping the original type,
table and nullability, and it fails exactly when some GetField inside the
expression names a column that is not on S, with that FieldMissing name. -/
theorem fixFieldIndexes_characterization (S : Schema) (e : Expression) :
    (match fixFieldIndexes S e with
     | .ok r => (∀ nm ∈ e.getFieldNames, hasColumn S nm = true) ∧ r = reindexSpec S e
     | .error err =>
         ∃ nm, err = .fieldMissing nm ∧ nm ∈ e.getFieldNames ∧ hasColumn S nm = false) ∧
    ((∃ err, fixFieldIndexes S e = .error err) ↔
      ∃ nm, nm ∈ e.getFieldNames ∧ hasColumn S nm = false) := by
  have h := (fixSound_all S (Expression.esize e)).1 e le_rfl
  unfold fixSound at h
  refine ⟨h, ?_, ?_⟩
  · rintro ⟨err, herr⟩
    rw [herr] at h
    obtain ⟨nm, hnm, hmem, hcol⟩ := h
    exact ⟨nm, hmem, hcol⟩
  · rintro ⟨nm, hmem, hcol⟩
    cases hfe : fixFieldIndexes S e with
    | ok r =>
      rw [hfe] at h
      exact absurd (h.1 nm hmem) (by rw [hcol]; exact Bool.false_ne_true)
    | error err => exact ⟨err, rfl⟩

/-- C6: the default rule list applies exactly nine rules in the fixed
order resolve_subqueries, resolve_tables, qualify_columns,
resolve_columns, resolve_database, resolve_star, resolve_functions,
pushdown, optimize_distinct. -/
theorem defaultRules_order :
    DefaultRules.map Rule.name =
      ["resolve_subqueries", "resolve_tables", "qualify_columns", "resolve_columns",
       "resolve_database", "resolve_star", "resolve_functions", "pushdown",
       "optimize_distinct"] ∧ DefaultRules.length = 9 := ⟨rfl, rfl⟩

/-- C7: optimizeDistinct returns OrderedDistinct(child) exactly when the
plan is Distinct(child) and its subtree contains a Sort node at any depth,
the child unmodified; every other plan is returned unchanged. -/
theorem optimizeDistinct_iff_sort (a : Analyzer) (n : Plan) :
    optimizeDistinct a n = .ok (optimizeDistinctSpec n) := by
  cases n with
  | distinct child =>
    rw [optimizeDistinct, optimizeDistinctSpec]
    rw [show (Plan.transformUpM isSortedCheck (Plan.distinct child)).run false =
      (Plan.distinct child, false || Plan.containsSort (Plan.distinct child)) from
      transformUp_isSorted _ false]
    simp [Plan.containsSort, apply_ite]
  | _ => rfl

/-- C9: resolveDatabase inspects only the root: a root that is neither
ShowTables nor CreateTable is returned unchanged for every analyzer, so a
ShowTables or CreateTable strictly below the root keeps an empty database
slot and raises no error; a ShowTables or CreateTable root gets the
catalog's current database, a catalog miss propagating. -/
theorem resolveDatabase_root_only :
    (∀ (a : Analyzer) (n : Plan), isShowOrCreate n = false → resolveDatabase a n = .ok n) ∧
    (∀ (a : Analyzer) (db : Option String),
      resolveDatabase a (.showTables db) =
        (a.catalog.database a.currentDatabase).map (fun d => Plan.showTables (some d.name))) ∧
    (∀ (a : Analyzer) (db : Option String) (nm : String) (s : Schema),
      resolveDatabase a (.createTable db nm s) =
        (a.catalog.database a.currentDatabase).map
          (fun d => Plan.createTable (some d.name) nm s)) := by
  refine ⟨?_, ?_, ?_⟩
  · intro a n h
    cases n <;> simp_all [resolveDatabase, isShowOrCreate]
  · intro a db
    rw [resolveDatabase]
    cases a.catalog.database a.currentDatabase <;> simp [Except.map]
  · intro a db nm s
    rw [resolveDatabase]
    cases a.catalog.database a.currentDatabase <;> simp [Except.map]

/-- C10: on a scan with projection-and-filters capability, the rewrite
pass appends to the handled-filters accumulator the expressions exactly as
HandledFilters returned them, while the wrapper node receives the used
columns and those filters re-indexed against the scan's own schema. -/
theorem pushdown_scan_handled_original (nm : String) (sch : Schema)
    (handler : List Expression → List Expression) (fbt : List (String × List String))
    (ebt : List (String × List Expression)) (fls : Filters) (hf : List Expression) :
    (pushdownVisitor fbt ebt fls
        (.resolvedTable ⟨nm, sch, .pushdownProjectionAndFilters handler⟩)).run hf =
      (do
        let cols ← fixFieldIndexesOnExpressions sch (lookupD ebt nm)
        let handled2 ← fixFieldIndexesOnExpressions sch (handler (lookupD fls nm))
        Except.ok (Plan.pushdownProjectionAndFiltersTable cols handled2
            ⟨nm, sch, .pushdownProjectionAndFilters handler⟩,
          hf ++ handler (lookupD fls nm))) := by
  rw [pushdownVisitor]
  cases hc : fixFieldIndexesOnExpressions sch (lookupD ebt nm) with
  | error err =>
    simp [StateT.run, bind, StateT.bind, modify, modifyGet, MonadStateOf.modifyGet,
      StateT.modifyGet, pure, StateT.pure, Except.pure, Except.bind, liftE, Except.map, hc]
  | ok cols =>
    cases hh : fixFieldIndexesOnExpressions sch (handler (lookupD fls nm)) with
    | error err =>
      simp [StateT.run, bind, StateT.bind, modify, modifyGet, MonadStateOf.modifyGet,
        StateT.modifyGet, pure, StateT.pure, Except.pure, Except.bind, liftE, Except.map,
        hc, hh]
    | ok handled2 =>
      simp [StateT.run, bind, StateT.bind, modify, modifyGet, MonadStateOf.modifyGet,
        StateT.modifyGet, pure, StateT.pure, Except.pure, Except.bind, liftE, Except.map,
        hc, hh]
